import Mathlib

/-!
# Verification of `convert.py` (thatte-idli-kaal-soup/video-pipeline)

A shallow embedding of the video-concatenation script `src/convert.py`.
Python strings are modelled as `List Char` (the filenames involved are
treated at character level; case folding is ASCII, as in `Char.toLower`).
Filesystem state is modelled as the ordered listing of the working
directory, and every external subprocess invocation (ffprobe / ffmpeg)
is recorded in an explicit call trace.  Python exceptions are modelled
with `Except`.
-/

namespace Convert

/-! ## String helpers: percent-decoding, dots, digits -/

/-- Hexadecimal digit test, as accepted by `urllib.parse.unquote`. -/
def isHexChar (c : Char) : Bool :=
  c.isDigit || ('a' ≤ c && c ≤ 'f') || ('A' ≤ c && c ≤ 'F')

/-- Value of a hexadecimal digit character. -/
def hexVal (c : Char) : Nat :=
  if c.isDigit then c.toNat - 48
  else if 'a' ≤ c && c ≤ 'f' then c.toNat - 87
  else c.toNat - 55

/-- `urllib.parse.unquote`: replace each `%hh` escape (two hex digits) by
the character with that code; malformed escapes are left verbatim.
(Byte-level model, adequate for ASCII escapes such as `%20`.) -/
def unquote : List Char → List Char
  | [] => []
  | '%' :: c1 :: c2 :: rest =>
    if isHexChar c1 && isHexChar c2 then
      Char.ofNat (16 * hexVal c1 + hexVal c2) :: unquote rest
    else '%' :: unquote (c1 :: c2 :: rest)
  | c :: rest => c :: unquote rest

/-- The part of `s` before its first `'.'` (all of `s` if it has no dot):
this is Python's `s.rsplit(".")[0]`, since `rsplit` with no maxsplit
splits at every dot and `[0]` takes the first field. -/
def beforeFirstDot (s : List Char) : List Char :=
  s.takeWhile (fun c => c != '.')

/-- The part of `s` after its last `'.'` (all of `s` if it has no dot):
this is Python's `s.rsplit(".")[-1]`, and also `s.rsplit(".", 1)[-1]`. -/
def afterLastDot (s : List Char) : List Char :=
  (s.reverse.takeWhile (fun c => c != '.')).reverse

/-- The part of `s` strictly before its last `'.'` (all of `s` if it has
no dot); "the filename with its final extension stripped". -/
def beforeLastDot (s : List Char) : List Char :=
  if '.' ∈ s then ((s.reverse.dropWhile (fun c => c != '.')).drop 1).reverse
  else s

/-- Helper for `digitRuns`: `acc` is the (reversed) digit run currently
being read. -/
def digitRunsAux : List Char → List Char → List (List Char)
  | [], acc => if acc.isEmpty then [] else [acc.reverse]
  | c :: rest, acc =>
    if c.isDigit then digitRunsAux rest (c :: acc)
    else if acc.isEmpty then digitRunsAux rest []
    else acc.reverse :: digitRunsAux rest []

/-- Maximal runs of decimal digits, as `re.findall(r"\d+", s)`. -/
def digitRuns (s : List Char) : List (List Char) :=
  digitRunsAux s []

/-- Numeric value of a digit string, as Python's `int`. -/
def natOfDigits (ds : List Char) : Nat :=
  ds.foldl (fun a c => 10 * a + (c.toNat - 48)) 0

/-! ## `_video_number` and `_get_video_list` -/

/-- `_video_number(filename)`:
`numbers = re.findall(r"\d+", unquote(filename).rsplit(".")[0])` followed
by `int(numbers[-1])`.  The `numbers[-1]` subscript raises `IndexError`
when no digit run exists, modelled by `none`. -/
def video_number (filename : List Char) : Option Nat :=
  ((digitRuns (beforeFirstDot (unquote filename))).getLast?).map natOfDigits

/-- `IGNORE_EXTENSIONS = (".txt", ".jpg", ".png", ".yaml")`. -/
def IGNORE_EXTENSIONS : List (List Char) :=
  [".txt".toList, ".jpg".toList, ".png".toList, ".yaml".toList]

/-- Python `name.lower()` (ASCII case folding). -/
def lowerStr (s : List Char) : List Char := s.map Char.toLower

/-- Python `s.endswith(sufs)` for a tuple of suffixes. -/
def endsWithAny (s : List Char) (sufs : List (List Char)) : Bool :=
  sufs.any (fun e => e.isSuffixOf s)

/-- `_get_video_list(video_dir)`: keep the names of the directory listing
whose lowercased form does not end with an ignored extension. -/
def get_video_list (listing : List (List Char)) : List (List Char) :=
  listing.filter (fun name => !(endsWithAny (lowerStr name) IGNORE_EXTENSIONS))

/-- The ordering key as the spec words it: "decode any percent-encoding,
strip the final extension, extract all digit runs, and return the
numeric value of the last digit run".  Stripping the *final* extension
keeps everything before the **last** dot (`beforeLastDot`), whereas the
code keeps everything before the **first** dot. -/
def spec_video_number (filename : List Char) : Option Nat :=
  ((digitRuns (beforeLastDot (unquote filename))).getLast?).map natOfDigits

/-- The (dotted, lowercased-by-the-caller) extension of a filename:
`'.'` plus everything after the last dot, `[]` for dotless names.  Used
to state the spec's "filenames whose extension is in the denylist". -/
def extensionOf (s : List Char) : List Char :=
  if '.' ∈ s then '.' :: afterLastDot s else []

/-! ## Sorting by `_video_number` -/

/-- The sort key actually compared: `_video_number`, with a default that
is only ever used on names where `_video_number` would raise (Python's
`sorted` raises there instead; see `sortVideos`). -/
def keyD (name : List Char) : Nat := (video_number name).getD 0

/-- Comparison used by `sorted(videos, key=_video_number)`. -/
def keyLE (a b : List Char) : Prop := keyD a ≤ keyD b

instance : DecidableRel keyLE := fun a b => Nat.decLe (keyD a) (keyD b)

instance : IsTotal (List Char) keyLE := ⟨fun a b => Nat.le_total (keyD a) (keyD b)⟩

instance : IsTrans (List Char) keyLE := ⟨fun _ _ _ => Nat.le_trans⟩

/-- `sorted(videos, key=_video_number)`: a stable ascending sort by key;
raises (modelled `none`) when some name has no digit run. -/
def sortVideos (videos : List (List Char)) : Option (List (List Char)) :=
  if videos.all (fun v => (video_number v).isSome) then
    some (List.insertionSort keyLE videos)
  else none

/-! ## The effectful pipeline

The directory is modelled by its ordered listing; file contents are
irrelevant to the control flow modelled here.  Probe answers and the
success of external tools are supplied by an environment `Env`, and
every subprocess invocation is recorded as a `Call`. -/

/-- Module-level filename constants of `convert.py`. -/
def INPUT_TXT : List Char := "input.txt".toList

def OUTPUT_NAME : List Char := "output.mkv".toList

def COVER_NAME : List Char := "cover.png".toList

/-- `CODEC_MAP = {"h264": "libx264"}`. -/
def CODEC_MAP : List (List Char × List Char) := [("h264".toList, "libx264".toList)]

/-- Directory state: the ordered listing returned by `os.listdir`. -/
structure FS where
  listing : List (List Char)
deriving DecidableEq

/-- Creating (or overwriting) a file: a new name is appended to the
listing, an existing one is left in place. -/
def addFile (fs : FS) (name : List Char) : FS :=
  if name ∈ fs.listing then fs else ⟨fs.listing ++ [name]⟩

/-- `os.rename(old, new)` inside the directory. -/
def renameFile (fs : FS) (a b : List Char) : FS :=
  ⟨fs.listing.map (fun n => if n = a then b else n)⟩

/-- One recorded subprocess invocation. -/
inductive Call where
  /-- `ffprobe` of the video stream (codec, width, height). -/
  | probeVideo (file : List Char)
  /-- `ffprobe` of the audio stream (codec). -/
  | probeAudio (file : List Char)
  /-- `ffmpeg` encode of the annotation clip to `outName`. -/
  | encode (outName : List Char)
  /-- `ffmpeg -f concat` over the manifest lines, into `output`. -/
  | concat (manifest : List (List Char)) (output : List Char)
deriving DecidableEq

/-- Python exceptions that the script can raise. -/
inductive Err where
  /-- `IndexError`: `videos[0]` or `numbers[-1]` on an empty list. -/
  | indexError
  /-- `FileNotFoundError`: `config.yaml` missing. -/
  | fileNotFound
  /-- `RuntimeError("Need title, date and venue in config")`. -/
  | runtimeError
  /-- `AssertionError`: "All videos must be in the same format!". -/
  | assertionError
  /-- `CalledProcessError`: an external tool exited non-zero. -/
  | subprocessError
deriving DecidableEq

/-- Result of an effectful step: outcome, final directory state, and the
trace of subprocess invocations made (also on the exception path). -/
structure Out (α : Type) where
  res : Except Err α
  fs : FS
  calls : List Call

/-- The environment: probe answers per file, the parsed `config.yaml`
(`none` when the file is absent or unreadable), and whether the two
ffmpeg invocations succeed.  Font and logo assets are assumed loadable
(the script asserts their existence at startup). -/
structure Env where
  vcodec : List Char → List Char
  vwidth : List Char → Nat
  vheight : List Char → Nat
  acodec : List Char → List Char
  config : Option (List (List Char × List Char))
  encodeOk : Bool
  concatOk : Bool

/-- `generate_cover_image(video_dir, width, height)`: read the config,
require the keys `title`, `date`, `venue`, then render and save
`cover.png` (image composition is abstracted; the write is recorded in
the listing).  Returns the written path. -/
def generate_cover_image (env : Env) (fs : FS) (_width _height : Nat) :
    Out (List Char) :=
  match env.config with
  | none => ⟨.error .fileNotFound, fs, []⟩
  | some config =>
    if (["title".toList, "date".toList, "venue".toList]).all
        (fun k => (config.map Prod.fst).contains k) then
      ⟨.ok COVER_NAME, addFile fs COVER_NAME, []⟩
    else ⟨.error .runtimeError, fs, []⟩

/-- The name `"annotation_0." + ext` of the generated annotation clip,
where `ext = videos[0].rsplit(".", 1)[-1]`. -/
def annotationFileName (v0 : List Char) : List Char :=
  "annotation_0.".toList ++ afterLastDot v0

/-- `generate_annotation(video_dir)`: probe the first eligible video; if
its codec is unsupported return `False`; otherwise build the cover
image, probe the audio codec, and encode the annotation clip. -/
def generate_annotation (env : Env) (fs : FS) : Out Bool :=
  match get_video_list fs.listing with
  | [] => ⟨.error .indexError, fs, []⟩
  | v0 :: _ =>
    match (CODEC_MAP.lookup (env.vcodec v0) : Option (List Char)) with
    | none => ⟨.ok false, fs, [Call.probeVideo v0]⟩
    | some _ =>
      match generate_cover_image env fs (env.vwidth v0) (env.vheight v0) with
      | ⟨.error e, fs1, calls1⟩ => ⟨.error e, fs1, Call.probeVideo v0 :: calls1⟩
      | ⟨.ok _, fs1, calls1⟩ =>
        let ann := annotationFileName v0
        let calls := Call.probeVideo v0 :: calls1 ++
          [Call.probeAudio v0, Call.encode ann]
        if env.encodeOk then ⟨.ok true, addFile fs1 ann, calls⟩
        else ⟨.error .subprocessError, fs1, calls⟩

/-- The manifest lines written to `input.txt`: the sorted names, minus
any that literally end in `".txt"` (the loop's case-sensitive guard). -/
def manifestLines (sortedVids : List (List Char)) : List (List Char) :=
  sortedVids.filter (fun n => !(".txt".toList.isSuffixOf n))

/-- `generate_concatenated_video(video_dir)`: skip when the output
exists; rename a single input; otherwise require a unique extension,
write the manifest and stream-copy concatenate. -/
def generate_concatenated_video (env : Env) (fs : FS) : Out Unit :=
  if OUTPUT_NAME ∈ fs.listing then ⟨.ok (), fs, []⟩
  else
    match get_video_list fs.listing with
    | [video] => ⟨.ok (), renameFile fs video OUTPUT_NAME, []⟩
    | videos =>
      if ((videos.map afterLastDot).dedup).length = 1 then
        let fs1 := addFile fs INPUT_TXT
        match sortVideos videos with
        | none => ⟨.error .indexError, fs1, []⟩
        | some sortedVids =>
          let c := Call.concat (manifestLines sortedVids) OUTPUT_NAME
          if env.concatOk then ⟨.ok (), addFile fs1 OUTPUT_NAME, [c]⟩
          else ⟨.error .subprocessError, fs1, [c]⟩
      else ⟨.error .assertionError, fs, []⟩

/-- `main(video_dir)`: annotation first (exceptions propagate), then
concatenation; the trailing `print` for the unannotated case has no
modelled effect. -/
def main (env : Env) (fs : FS) : Out Unit :=
  match generate_annotation env fs with
  | ⟨.error e, fs1, calls1⟩ => ⟨.error e, fs1, calls1⟩
  | ⟨.ok _annotated, fs1, calls1⟩ =>
    let c := generate_concatenated_video env fs1
    ⟨c.res, c.fs, calls1 ++ c.calls⟩

/-- A sample environment: every file probes as h264 video / aac audio,
the config is complete, external tools succeed. -/
def sampleEnv : Env where
  vcodec _ := "h264".toList
  vwidth _ := 640
  vheight _ := 480
  acodec _ := "aac".toList
  config := some [("title".toList, "t".toList), ("date".toList, "d".toList),
                  ("venue".toList, "v".toList)]
  encodeOk := true
  concatOk := true

/-- Like `sampleEnv` but the probed video codec is `mpeg4`, which is not
in `CODEC_MAP`. -/
def mpegEnv : Env := { sampleEnv with vcodec := fun _ => "mpeg4".toList }

/-- Like `sampleEnv` but the config lacks the required key `venue`. -/
def noVenueEnv : Env :=
  { sampleEnv with
    config := some [("title".toList, "t".toList), ("date".toList, "d".toList)] }

end Convert

namespace Convert

/-! ## Lemmas about digit runs and dots -/

theorem digitRunsAux_eq_nil_iff (s acc : List Char) :
    digitRunsAux s acc = [] ↔ acc = [] ∧ ∀ c ∈ s, c.isDigit = false := by
  induction s generalizing acc with
  | nil =>
    cases acc <;> simp [digitRunsAux]
  | cons c rest ih =>
    by_cases hc : c.isDigit
    · rw [digitRunsAux, if_pos hc, ih]
      simp [hc]
    · rw [digitRunsAux, if_neg hc]
      by_cases ha : acc.isEmpty
      · rw [if_pos ha, ih]
        rw [List.isEmpty_iff] at ha
        simp [ha, hc]
      · rw [if_neg ha]
        rw [List.isEmpty_iff] at ha
        simp [ha, hc]

theorem digitRuns_eq_nil_iff (s : List Char) :
    digitRuns s = [] ↔ ∀ c ∈ s, c.isDigit = false := by
  rw [digitRuns, digitRunsAux_eq_nil_iff]
  simp

theorem mem_afterLastDot_ne_dot {s : List Char} {c : Char}
    (h : c ∈ afterLastDot s) : c ≠ '.' := by
  rw [afterLastDot, List.mem_reverse] at h
  have h2 := List.mem_takeWhile_imp h
  simpa using h2

theorem beforeLastDot_spec {s : List Char} (h : '.' ∈ s) :
    beforeLastDot s ++ '.' :: afterLastDot s = s := by
  have hmem : '.' ∈ s.reverse := List.mem_reverse.mpr h
  have hdw : s.reverse.dropWhile (fun c => c != '.') ≠ [] := by
    intro hnil
    rw [List.dropWhile_eq_nil_iff] at hnil
    have h2 := hnil '.' hmem
    simp at h2
  obtain ⟨d, ds, hds⟩ := List.exists_cons_of_ne_nil hdw
  have hd : d = '.' := by
    have h3 := List.head?_dropWhile_not (fun c => c != '.') s.reverse
    rw [hds] at h3
    simpa using h3
  subst hd
  have hsplit := List.takeWhile_append_dropWhile (fun c => c != '.') s.reverse
  rw [hds] at hsplit
  rw [beforeLastDot, if_pos h, afterLastDot, hds]
  conv_rhs => rw [← s.reverse_reverse, ← hsplit]
  simp

theorem beforeFirstDot_append_dot (B A : List Char) :
    beforeFirstDot (B ++ '.' :: A) = beforeFirstDot B := by
  induction B with
  | nil => simp [beforeFirstDot]
  | cons c B ih =>
    by_cases hc : c = '.'
    · subst hc
      simp [beforeFirstDot, List.takeWhile_cons]
    · have hb : (c != '.') = true := by simpa using hc
      simp only [beforeFirstDot, List.cons_append, List.takeWhile_cons, hb,
        if_true] at ih ⊢
      rw [ih]

theorem beforeFirstDot_of_not_mem {s : List Char} (h : '.' ∉ s) :
    beforeFirstDot s = s := by
  rw [beforeFirstDot, List.takeWhile_eq_self_iff]
  intro x hx
  simp only [bne_iff_ne, ne_eq]
  rintro rfl
  exact h hx

theorem beforeFirstDot_eq_beforeLastDot {s : List Char}
    (h : s.count '.' ≤ 1) : beforeFirstDot s = beforeLastDot s := by
  by_cases hd : '.' ∈ s
  · have hdec := beforeLastDot_spec hd
    have hB : '.' ∉ beforeLastDot s := by
      intro hmem
      have hc : 2 ≤ s.count '.' := by
        conv_rhs => rw [← hdec]
        rw [List.count_append, List.count_cons_self]
        have h1 : 1 ≤ (beforeLastDot s).count '.' := List.count_pos_iff.mpr hmem
        omega
      omega
    calc beforeFirstDot s
        = beforeFirstDot (beforeLastDot s ++ '.' :: afterLastDot s) := by rw [hdec]
      _ = beforeFirstDot (beforeLastDot s) := beforeFirstDot_append_dot _ _
      _ = beforeLastDot s := beforeFirstDot_of_not_mem hB
  · rw [beforeFirstDot_of_not_mem hd, beforeLastDot, if_neg hd]

end Convert

namespace Convert

/-- **C9**: for every filename whose percent-decoded, extension-stripped
stem contains no digit run, the ordering-key extraction fails (raises
`IndexError`, modelled as `none`) rather than returning a key. -/
theorem C9_no_digit_run_fails (f : List Char)
    (h : digitRuns (beforeLastDot (unquote f)) = []) :
    video_number f = none := by
  rw [video_number]
  have hnil : digitRuns (beforeFirstDot (unquote f)) = [] := by
    rw [digitRuns_eq_nil_iff] at h ⊢
    intro c hc
    apply h
    by_cases hd : '.' ∈ unquote f
    · have hdec := beforeLastDot_spec hd
      have heq : beforeFirstDot (unquote f) =
          beforeFirstDot (beforeLastDot (unquote f)) := by
        conv_lhs => rw [← hdec]
        exact beforeFirstDot_append_dot _ _
      rw [heq] at hc
      exact ( List.takeWhile_prefix _).sublist.subset hc
    · rw [beforeLastDot, if_neg hd]
      exact ( List.takeWhile_prefix _).sublist.subset hc
  rw [hnil]
  rfl

/-- Witness for C9 at the concrete filename `"clip.mp4"`. -/
theorem C9_no_digit_run_fails_witness :
    digitRuns (beforeLastDot (unquote "clip.mp4".toList)) = [] ∧
      video_number "clip.mp4".toList = none :=
  ⟨by decide, C9_no_digit_run_fails "clip.mp4".toList (by decide)⟩

/-- **C1** (amended): for every filename whose percent-decoded form has
at most one dot, the ordering key computed by `_video_number` equals the
numeric value of the last digit run obtained after percent-decoding and
stripping the final extension.  (With two or more dots the code truncates
at the *first* dot, not the last; see the counterexample.) -/
theorem C1_video_number_key (f : List Char)
    (h : (unquote f).count '.' ≤ 1) :
    video_number f = spec_video_number f := by
  rw [video_number, spec_video_number, beforeFirstDot_eq_beforeLastDot h]

/-- Witness for C1 at the spec's own examples `"clip%202.mp4"` (key 2)
and `"part10_v2.mp4"` (key 2). -/
theorem C1_video_number_key_witness :
    ((unquote "clip%202.mp4".toList).count '.' ≤ 1 ∧
      video_number "clip%202.mp4".toList = spec_video_number "clip%202.mp4".toList ∧
      video_number "clip%202.mp4".toList = some 2) ∧
    ((unquote "part10_v2.mp4".toList).count '.' ≤ 1 ∧
      video_number "part10_v2.mp4".toList = spec_video_number "part10_v2.mp4".toList ∧
      video_number "part10_v2.mp4".toList = some 2) :=
  ⟨⟨by decide, C1_video_number_key "clip%202.mp4".toList (by decide), by decide⟩,
   ⟨by decide, C1_video_number_key "part10_v2.mp4".toList (by decide), by decide⟩⟩

/-- **C1** fails as stated: for `"v1.2.mp4"` the code's key is `1`
(truncation at the first dot), while the last digit run of the
percent-decoded, final-extension-stripped stem `"v1.2"` has value `2`. -/
theorem C1_video_number_key_cex :
    video_number "v1.2.mp4".toList = some 1 ∧
    spec_video_number "v1.2.mp4".toList = some 2 ∧
    video_number "v1.2.mp4".toList ≠ spec_video_number "v1.2.mp4".toList := by
  refine ⟨by decide, by decide, ?_⟩
  decide

end Convert

namespace Convert

/-! ## Suffix-versus-extension lemmas -/

theorem afterLastDot_append_dotfree (p x : List Char)
    (hx : ∀ c ∈ x, c ≠ '.') : afterLastDot (p ++ '.' :: x) = x := by
  rw [afterLastDot, List.reverse_append, List.reverse_cons, List.append_assoc,
    List.singleton_append,
    List.takeWhile_append_of_pos (by
      intro a ha
      simpa using hx a (List.mem_reverse.mp ha)),
    List.takeWhile_cons]
  simp

theorem suffix_dot_iff {x s : List Char} (hxd : ∀ c ∈ x, c ≠ '.') :
    ('.' :: x) <:+ s ↔ extensionOf s = '.' :: x := by
  constructor
  · rintro ⟨p, rfl⟩
    have hd : '.' ∈ p ++ '.' :: x := by simp
    rw [extensionOf, if_pos hd, afterLastDot_append_dotfree p x hxd]
  · intro h
    have hd : '.' ∈ s := by
      by_contra hd
      rw [extensionOf, if_neg hd] at h
      exact List.cons_ne_nil _ _ h.symm
    rw [extensionOf, if_pos hd, List.cons.injEq] at h
    have hdec := beforeLastDot_spec hd
    rw [← hdec, ← h.2]
    exact List.suffix_append _ _

theorem endsWithAny_iff_mem {s : List Char} {es : List (List Char)}
    (hes : ∀ e ∈ es, e.head? = some '.' ∧ ∀ c ∈ e.tail, c ≠ '.') :
    endsWithAny s es = true ↔ extensionOf s ∈ es := by
  induction es with
  | nil => simp [endsWithAny]
  | cons e es ih =>
    have he := hes e (List.mem_cons_self e es)
    have hdecomp : e = '.' :: e.tail := by
      cases e with
      | nil => simp at he
      | cons a t =>
        have h1 := he.1
        simp only [List.head?_cons, Option.some.injEq] at h1
        simp [h1]
    have hih := ih (fun e' he' => hes e' (List.mem_cons_of_mem _ he'))
    rw [endsWithAny] at hih ⊢
    simp only [List.any_cons, Bool.or_eq_true, List.mem_cons, hih]
    constructor
    · rintro (h | h)
      · left
        rw [List.isSuffixOf_iff_suffix] at h
        rw [hdecomp] at h ⊢
        exact (suffix_dot_iff he.2).mp h
      · right; exact h
    · rintro (h | h)
      · left
        rw [List.isSuffixOf_iff_suffix, hdecomp]
        rw [suffix_dot_iff he.2, ← hdecomp]
        exact h
      · right; exact h

/-- **C8**: the Input Lister returns exactly the filenames of the listing
whose (case-insensitively matched) extension is not in the denylist
`IGNORE_EXTENSIONS`; in particular `"NOTES.TXT"` is excluded. -/
theorem C8_input_lister (listing : List (List Char)) (name : List Char) :
    (name ∈ get_video_list listing ↔
      name ∈ listing ∧ extensionOf (lowerStr name) ∉ IGNORE_EXTENSIONS) ∧
    get_video_list ["NOTES.TXT".toList, "a_1.mp4".toList] = ["a_1.mp4".toList] := by
  refine ⟨?_, by decide⟩
  rw [get_video_list, List.mem_filter]
  have hiff := @endsWithAny_iff_mem (lowerStr name) IGNORE_EXTENSIONS (by decide)
  constructor
  · rintro ⟨h1, h2⟩
    refine ⟨h1, ?_⟩
    rw [← hiff]
    simpa using h2
  · rintro ⟨h1, h2⟩
    refine ⟨h1, ?_⟩
    rw [← hiff] at h2
    simpa using h2

end Convert

namespace Convert

/-! ## Stability of the sort -/

theorem orderedInsert_filter_key (a : List Char) (l : List (List Char)) (k : Nat) :
    (l.orderedInsert keyLE a).filter (fun v => keyD v == k) =
      (a :: l).filter (fun v => keyD v == k) := by
  induction l with
  | nil => rfl
  | cons b l ih =>
    rw [List.orderedInsert]
    by_cases hab : keyLE a b
    · rw [if_pos hab]
    · rw [if_neg hab]
      have hlt : keyD b < keyD a := Nat.lt_of_not_le hab
      by_cases hbk : keyD b = k
      · have hak : (keyD a == k) = false := by
          simp only [beq_eq_false_iff_ne, ne_eq]
          omega
        rw [List.filter_cons, List.filter_cons, List.filter_cons]
        simp only [hbk, beq_self_eq_true, if_true, hak, Bool.false_eq_true,
          if_false, ih, List.filter_cons, hak]
      · have hbk' : (keyD b == k) = false := by simpa using hbk
        rw [List.filter_cons, List.filter_cons, hbk']
        simp only [Bool.false_eq_true, if_false, ih, List.filter_cons, hbk']

theorem insertionSort_filter_key (l : List (List Char)) (k : Nat) :
    (List.insertionSort keyLE l).filter (fun v => keyD v == k) =
      l.filter (fun v => keyD v == k) := by
  induction l with
  | nil => rfl
  | cons a l ih =>
    rw [List.insertionSort, orderedInsert_filter_key, List.filter_cons,
      List.filter_cons, ih]

/-- **C7**: the Sequencer comparison is total; `sorted` by `_video_number`
returns a permutation that is ascending in the numeric key and stable
(names with any given key keep their relative order); on
`["c_3.mp4", "a_1.mp4", "b_2.mp4"]` it returns
`["a_1.mp4", "b_2.mp4", "c_3.mp4"]`. -/
theorem C7_sequencer_sort :
    (∀ a b : List Char, keyLE a b ∨ keyLE b a) ∧
    (∀ videos s, sortVideos videos = some s →
      s.Perm videos ∧ s.Sorted keyLE ∧
        ∀ k, s.filter (fun v => keyD v == k) =
          videos.filter (fun v => keyD v == k)) ∧
    sortVideos ["c_3.mp4".toList, "a_1.mp4".toList, "b_2.mp4".toList] =
      some ["a_1.mp4".toList, "b_2.mp4".toList, "c_3.mp4".toList] := by
  refine ⟨fun a b => Nat.le_total (keyD a) (keyD b), ?_, by decide⟩
  intro videos s hs
  rw [sortVideos] at hs
  split at hs
  · cases hs
    exact ⟨List.perm_insertionSort keyLE videos,
      List.sorted_insertionSort keyLE videos,
      fun k => insertionSort_filter_key videos k⟩
  · cases hs

/-- Witness for C7 at the spec's example list. -/
theorem C7_sequencer_sort_witness :
    (["a_1.mp4".toList, "b_2.mp4".toList, "c_3.mp4".toList] : List (List Char)).Perm
        ["c_3.mp4".toList, "a_1.mp4".toList, "b_2.mp4".toList] ∧
    (["a_1.mp4".toList, "b_2.mp4".toList, "c_3.mp4".toList] : List (List Char)).Sorted keyLE ∧
    (["a_1.mp4".toList, "b_2.mp4".toList, "c_3.mp4".toList] : List (List Char)).filter
        (fun v => keyD v == 2) =
      (["c_3.mp4".toList, "a_1.mp4".toList, "b_2.mp4".toList] : List (List Char)).filter
        (fun v => keyD v == 2) :=
  ⟨(C7_sequencer_sort.2.1 ["c_3.mp4".toList, "a_1.mp4".toList, "b_2.mp4".toList]
      ["a_1.mp4".toList, "b_2.mp4".toList, "c_3.mp4".toList] (by decide)).1,
   (C7_sequencer_sort.2.1 ["c_3.mp4".toList, "a_1.mp4".toList, "b_2.mp4".toList]
      ["a_1.mp4".toList, "b_2.mp4".toList, "c_3.mp4".toList] (by decide)).2.1,
   (C7_sequencer_sort.2.1 ["c_3.mp4".toList, "a_1.mp4".toList, "b_2.mp4".toList]
      ["a_1.mp4".toList, "b_2.mp4".toList, "c_3.mp4".toList] (by decide)).2.2 2⟩

end Convert

namespace Convert

/-! ## Pipeline helper lemmas -/

theorem mem_addFile_of_mem {fs : FS} {n x : List Char}
    (h : x ∈ fs.listing) : x ∈ (addFile fs n).listing := by
  rw [addFile]
  split
  · exact h
  · exact List.mem_append_left _ h

theorem mem_addFile_self (fs : FS) (n : List Char) :
    n ∈ (addFile fs n).listing := by
  rw [addFile]
  split
  · assumption
  · simp

theorem cover_cases (env : Env) (fs : FS) (w h : Nat) :
    generate_cover_image env fs w h = ⟨.error .fileNotFound, fs, []⟩ ∨
    generate_cover_image env fs w h = ⟨.ok COVER_NAME, addFile fs COVER_NAME, []⟩ ∨
    generate_cover_image env fs w h = ⟨.error .runtimeError, fs, []⟩ := by
  rw [generate_cover_image]
  split
  · left; rfl
  · split
    · right; left; rfl
    · right; right; rfl

theorem annotation_fs_calls (env : Env) (fs : FS) :
    (∀ x ∈ fs.listing, x ∈ ( generate_annotation env fs).fs.listing) ∧
    (∀ m o, Call.concat m o ∉ ( generate_annotation env fs).calls) := by
  rw [ generate_annotation]
  split
  · exact ⟨fun x h => h, by simp⟩
  next v0 rest heq =>
    split
    · exact ⟨fun x h => h, by simp⟩
    next enc hc =>
      split
      next e fs1 calls1 heqc =>
        rcases cover_cases env fs (env.vwidth v0) (env.vheight v0) with
          hcov | hcov | hcov
        · rw [hcov] at heqc
          simp only [Out.mk.injEq] at heqc
          obtain ⟨-, h2, h3⟩ := heqc
          rw [← h2, ← h3]
          exact ⟨fun x h => h, by simp⟩
        · rw [hcov] at heqc
          simp at heqc
        · rw [hcov] at heqc
          simp only [Out.mk.injEq] at heqc
          obtain ⟨-, h2, h3⟩ := heqc
          rw [← h2, ← h3]
          exact ⟨fun x h => h, by simp⟩
      next a fs1 calls1 heqc =>
        rcases cover_cases env fs (env.vwidth v0) (env.vheight v0) with
          hcov | hcov | hcov
        · rw [hcov] at heqc
          simp at heqc
        · rw [hcov] at heqc
          simp only [Out.mk.injEq] at heqc
          obtain ⟨-, h2, h3⟩ := heqc
          rw [← h2, ← h3]
          split
          · refine ⟨fun x h => mem_addFile_of_mem (mem_addFile_of_mem h), ?_⟩
            intro m o
            simp
          · refine ⟨fun x h => mem_addFile_of_mem h, ?_⟩
            intro m o
            simp
        · rw [hcov] at heqc
          simp at heqc

end Convert

namespace Convert

/-- **C2** (amended): when the output file already exists, the
Concatenator is an idempotent no-op (no directory change, no subprocess)
and a whole `main` run performs no concatenation invocation; the
Annotation Builder, however, runs unconditionally on every invocation
(see the counterexample for the encode it still performs). -/
theorem C2_existing_output_skips_concat (env : Env) (fs : FS)
    (h : OUTPUT_NAME ∈ fs.listing) :
    generate_concatenated_video env fs = ⟨.ok (), fs, []⟩ ∧
    ∀ m o, Call.concat m o ∉ (main env fs).calls := by
  have hskip : ∀ fs' : FS, OUTPUT_NAME ∈ fs'.listing →
      generate_concatenated_video env fs' = ⟨.ok (), fs', []⟩ := by
    intro fs' h'
    rw [generate_concatenated_video, if_pos h']
  refine ⟨hskip fs h, ?_⟩
  intro m o
  rw [main]
  split
  next e fs1 calls1 heq =>
    have hno := (annotation_fs_calls env fs).2 m o
    rw [heq] at hno
    exact hno
  next a fs1 calls1 heq =>
    have hmem : OUTPUT_NAME ∈ fs1.listing := by
      have hm := (annotation_fs_calls env fs).1 OUTPUT_NAME h
      rw [heq] at hm
      exact hm
    have hno := (annotation_fs_calls env fs).2 m o
    rw [heq] at hno
    rw [hskip fs1 hmem]
    simpa using hno

/-- Witness for C2 (amended) at a directory that already contains
`output.mkv`. -/
theorem C2_existing_output_skips_concat_witness :
    generate_concatenated_video sampleEnv ⟨["output.mkv".toList]⟩ =
      ⟨.ok (), ⟨["output.mkv".toList]⟩, []⟩ ∧
    Call.concat [] "output.mkv".toList ∉
      (main sampleEnv ⟨["output.mkv".toList]⟩).calls :=
  ⟨(C2_existing_output_skips_concat sampleEnv ⟨["output.mkv".toList]⟩ (by decide)).1,
   (C2_existing_output_skips_concat sampleEnv ⟨["output.mkv".toList]⟩ (by decide)).2
     [] "output.mkv".toList⟩

/-- **C2** is false as stated: after a first successful run on a
directory with one `h264` input, a second run performs transcoding work:
the Annotation Builder runs unconditionally and invokes the annotation
encode again (in reality that `ffmpeg` call then fails on the existing
`annotation_0.mp4`, aborting the run). -/
theorem C2_existing_output_skips_concat_cex :
    OUTPUT_NAME ∈ (main sampleEnv ⟨["video1.mp4".toList]⟩).fs.listing ∧
    Call.encode "annotation_0.mp4".toList ∈
      (main sampleEnv (main sampleEnv ⟨["video1.mp4".toList]⟩).fs).calls := by
  decide

end Convert

namespace Convert

/-- **C3**: with more than one eligible input and at least two distinct
extensions among them, the Concatenator fails with the format-mismatch
`AssertionError` before writing the manifest and before invoking any
external tool: the directory is unchanged (no `input.txt`, no
`output.mkv`) and the call trace is empty. -/
theorem C3_mixed_formats_fatal (env : Env) (fs : FS)
    (hout : OUTPUT_NAME ∉ fs.listing)
    (hlen : 1 < (get_video_list fs.listing).length)
    (a b : List Char)
    (ha : a ∈ get_video_list fs.listing)
    (hb : b ∈ get_video_list fs.listing)
    (hab : afterLastDot a ≠ afterLastDot b) :
    generate_concatenated_video env fs = ⟨.error .assertionError, fs, []⟩ := by
  rw [generate_concatenated_video, if_neg hout]
  split
  next video heq =>
    rw [heq] at hlen
    simp at hlen
  next videos hne =>
    have hded : ¬ (((get_video_list fs.listing).map afterLastDot).dedup.length = 1) := by
      intro h1
      obtain ⟨x, hx⟩ := List.length_eq_one.mp h1
      have hax : afterLastDot a = x := by
        have := List.mem_dedup.mpr (List.mem_map_of_mem afterLastDot ha)
        rw [hx] at this
        simpa using this
      have hbx : afterLastDot b = x := by
        have := List.mem_dedup.mpr (List.mem_map_of_mem afterLastDot hb)
        rw [hx] at this
        simpa using this
      exact hab (hax.trans hbx.symm)
    rw [if_neg hded]

/-- Witness for C3: two inputs `a_1.mp4` and `b_2.avi`. -/
theorem C3_mixed_formats_fatal_witness :
    generate_concatenated_video sampleEnv ⟨["a_1.mp4".toList, "b_2.avi".toList]⟩ =
      ⟨.error .assertionError, ⟨["a_1.mp4".toList, "b_2.avi".toList]⟩, []⟩ :=
  C3_mixed_formats_fatal sampleEnv ⟨["a_1.mp4".toList, "b_2.avi".toList]⟩
    (by decide) (by decide) "a_1.mp4".toList "b_2.avi".toList
    (by decide) (by decide) (by decide)

/-- **C6**: with exactly one eligible input and no pre-existing output,
the Concatenator renames that input to `output.mkv`, writes no manifest
(`input.txt` is not created), and invokes no external tool. -/
theorem C6_single_input_rename (env : Env) (fs : FS) (v : List Char)
    (hout : OUTPUT_NAME ∉ fs.listing)
    (hv : get_video_list fs.listing = [v]) :
    generate_concatenated_video env fs = ⟨.ok (), renameFile fs v OUTPUT_NAME, []⟩ ∧
    (INPUT_TXT ∉ fs.listing → INPUT_TXT ∉ (renameFile fs v OUTPUT_NAME).listing) := by
  constructor
  · rw [generate_concatenated_video, if_neg hout]
    split
    next video heq =>
      rw [hv] at heq
      simp only [List.cons.injEq, and_true] at heq
      rw [heq]
    next videos hne =>
      exact absurd hv (hne v)
  · intro hin
    rw [renameFile]
    simp only [List.mem_map]
    rintro ⟨x, hx, hxx⟩
    by_cases hxv : x = v
    · rw [if_pos hxv] at hxx
      exact absurd hxx.symm (by decide)
    · rw [if_neg hxv] at hxx
      rw [hxx] at hx
      exact hin hx

/-- Witness for C6: single input `a_1.mp4`. -/
theorem C6_single_input_rename_witness :
    generate_concatenated_video sampleEnv ⟨["a_1.mp4".toList]⟩ =
      ⟨.ok (), renameFile ⟨["a_1.mp4".toList]⟩ "a_1.mp4".toList OUTPUT_NAME, []⟩ ∧
    INPUT_TXT ∉ (renameFile ⟨["a_1.mp4".toList]⟩ "a_1.mp4".toList OUTPUT_NAME).listing :=
  ⟨(C6_single_input_rename sampleEnv ⟨["a_1.mp4".toList]⟩ "a_1.mp4".toList
      (by decide) (by decide)).1,
   (C6_single_input_rename sampleEnv ⟨["a_1.mp4".toList]⟩ "a_1.mp4".toList
      (by decide) (by decide)).2 (by decide)⟩

end Convert

namespace Convert

/-- **C4**: when the first eligible video's probed codec is not in
`CODEC_MAP`, the Annotation Builder returns `False` having performed only
the video probe — no cover image, no audio probe, no encode, no
directory change — and `main` continues straight into the Concatenator. -/
theorem C4_unsupported_codec (env : Env) (fs : FS)
    (v0 : List Char) (rest : List (List Char))
    (hv : get_video_list fs.listing = v0 :: rest)
    (hc : CODEC_MAP.lookup (env.vcodec v0) = none) :
    generate_annotation env fs = ⟨.ok false, fs, [Call.probeVideo v0]⟩ ∧
    main env fs = ⟨( generate_concatenated_video env fs).res,
      ( generate_concatenated_video env fs).fs,
      Call.probeVideo v0 :: ( generate_concatenated_video env fs).calls⟩ := by
  have h1 : generate_annotation env fs = ⟨.ok false, fs, [Call.probeVideo v0]⟩ := by
    rw [ generate_annotation]
    split
    next heq => rw [hv] at heq; exact absurd heq (by simp)
    next w0 wrest heq =>
      rw [hv] at heq
      obtain ⟨rfl, rfl⟩ : w0 = v0 ∧ wrest = rest := by
        simpa using heq.symm
      split
      next => rfl
      next enc hlk => rw [hc] at hlk; exact absurd hlk (by simp)
  refine ⟨h1, ?_⟩
  rw [main]
  split
  next e fs1 calls1 heq =>
    rw [h1] at heq
    exact absurd heq.symm (by simp)
  next a fs1 calls1 heq =>
    rw [h1] at heq
    have h' := heq.symm
    rw [Out.mk.injEq] at h'
    obtain ⟨-, h2, h3⟩ := h'
    rw [h2, h3]
    rfl

/-- Witness for C4: an `mpeg4` input. -/
theorem C4_unsupported_codec_witness :
    generate_annotation mpegEnv ⟨["a_1.mp4".toList]⟩ =
      ⟨.ok false, ⟨["a_1.mp4".toList]⟩, [Call.probeVideo "a_1.mp4".toList]⟩ ∧
    main mpegEnv ⟨["a_1.mp4".toList]⟩ =
      ⟨( generate_concatenated_video mpegEnv ⟨["a_1.mp4".toList]⟩).res,
       ( generate_concatenated_video mpegEnv ⟨["a_1.mp4".toList]⟩).fs,
       Call.probeVideo "a_1.mp4".toList ::
         ( generate_concatenated_video mpegEnv ⟨["a_1.mp4".toList]⟩).calls⟩ :=
  ⟨(C4_unsupported_codec mpegEnv ⟨["a_1.mp4".toList]⟩ "a_1.mp4".toList []
      (by decide) (by decide)).1,
   (C4_unsupported_codec mpegEnv ⟨["a_1.mp4".toList]⟩ "a_1.mp4".toList []
      (by decide) (by decide)).2⟩

/-- **C5**: when the parsed config is missing any of the required keys
`title`, `date`, `venue`, the Cover Generator raises the fatal
`RuntimeError` and writes no image file: the directory is unchanged. -/
theorem C5_missing_config_key (env : Env) (fs : FS) (w h : Nat)
    (m : List (List Char × List Char)) (hm : env.config = some m)
    (k : List Char)
    (hk : k ∈ ["title".toList, "date".toList, "venue".toList])
    (hmiss : k ∉ m.map Prod.fst) :
    generate_cover_image env fs w h = ⟨.error .runtimeError, fs, []⟩ := by
  rw [generate_cover_image]
  split
  next hnone =>
    rw [hm] at hnone
    exact absurd hnone (by simp)
  next config hcfg =>
    have hcm : config = m := by
      rw [hm] at hcfg
      simpa using hcfg.symm
    subst hcm
    rw [if_neg ?hall]
    case hall =>
      rw [List.all_eq_true]
      intro hall
      have hkc := hall k hk
      rw [List.contains_iff_exists_mem_beq] at hkc
      obtain ⟨k', hk', hbeq⟩ := hkc
      rw [beq_iff_eq] at hbeq
      rw [hbeq] at hmiss
      exact hmiss hk'

/-- Witness for C5: a config with `title` and `date` but no `venue`. -/
theorem C5_missing_config_key_witness :
    generate_cover_image noVenueEnv ⟨[]⟩ 640 480 =
      ⟨.error .runtimeError, ⟨[]⟩, []⟩ :=
  C5_missing_config_key noVenueEnv ⟨[]⟩ 640 480
    [("title".toList, "t".toList), ("date".toList, "d".toList)] rfl
    "venue".toList (by decide) (by decide)

end Convert

namespace Convert

/-! ## Helpers for the annotation-clip claim -/

theorem toLower_ne_dot {c : Char} (h : c ≠ '.') : Char.toLower c ≠ '.' := by
  simp only [Char.toLower]
  split
  next hcond =>
    obtain ⟨h1, h2⟩ := hcond
    generalize hg : c.toNat = n at h1 h2
    interval_cases n <;> decide
  next => exact h

theorem unquote_cons_of_ne (c : Char) (rest : List Char) (hc : c ≠ '%') :
    unquote (c :: rest) = c :: unquote rest := by
  rw [unquote.eq_def]
  split
  next heq => exact absurd heq (by simp)
  next c1 c2 r heq =>
    obtain ⟨h1, -⟩ := List.cons.inj heq
    exact absurd h1 hc
  next x r hne heq =>
    obtain ⟨h1, h2⟩ := List.cons.inj heq
    rw [h1, h2]

theorem unquote_append_nopct (p x : List Char) (hp : '%' ∉ p) :
    unquote (p ++ x) = p ++ unquote x := by
  induction p with
  | nil => rfl
  | cons c p ih =>
    have hc : c ≠ '%' := fun h => hp (h ▸ List.mem_cons_self c p)
    rw [List.cons_append, unquote_cons_of_ne c _ hc,
      ih (fun h => hp (List.mem_cons_of_mem c h)), List.cons_append]

theorem sortVideos_sorted_perm {videos s : List (List Char)}
    (hs : sortVideos videos = some s) : s.Sorted keyLE ∧ s.Perm videos := by
  rw [sortVideos] at hs
  split at hs
  · cases hs
    exact ⟨List.sorted_insertionSort keyLE videos,
      List.perm_insertionSort keyLE videos⟩
  · cases hs

theorem annotation_cases (env : Env) (fs : FS) :
    generate_annotation env fs = ⟨.error .indexError, fs, []⟩ ∨
    (∃ v0 rest, get_video_list fs.listing = v0 :: rest ∧
      ( generate_annotation env fs = ⟨.ok false, fs, [Call.probeVideo v0]⟩ ∨
        generate_annotation env fs = ⟨.error .fileNotFound, fs, [Call.probeVideo v0]⟩ ∨
        generate_annotation env fs = ⟨.error .runtimeError, fs, [Call.probeVideo v0]⟩ ∨
        generate_annotation env fs =
          ⟨.ok true, addFile (addFile fs COVER_NAME) (annotationFileName v0),
            [Call.probeVideo v0, Call.probeAudio v0,
             Call.encode (annotationFileName v0)]⟩ ∨
        generate_annotation env fs =
          ⟨.error .subprocessError, addFile fs COVER_NAME,
            [Call.probeVideo v0, Call.probeAudio v0,
             Call.encode (annotationFileName v0)]⟩)) := by
  rw [ generate_annotation]
  split
  next heq => left; rfl
  next v0 rest heq =>
    right
    refine ⟨v0, rest, heq, ?_⟩
    split
    next => left; rfl
    next enc hc =>
      split
      next e fs1 calls1 heqc =>
        rcases cover_cases env fs (env.vwidth v0) (env.vheight v0) with
          hcov | hcov | hcov <;> rw [hcov] at heqc
        · right; left
          rw [Out.mk.injEq] at heqc
          obtain ⟨h1, h2, h3⟩ := heqc
          injection h1 with h1
          rw [← h1, ← h2, ← h3]
        · exact absurd heqc (by simp)
        · right; right; left
          rw [Out.mk.injEq] at heqc
          obtain ⟨h1, h2, h3⟩ := heqc
          injection h1 with h1
          rw [← h1, ← h2, ← h3]
      next a fs1 calls1 heqc =>
        rcases cover_cases env fs (env.vwidth v0) (env.vheight v0) with
          hcov | hcov | hcov <;> rw [hcov] at heqc
        · exact absurd heqc (by simp)
        · rw [Out.mk.injEq] at heqc
          obtain ⟨h1, h2, h3⟩ := heqc
          split
          next henc =>
            right; right; right; left
            rw [← h2, ← h3]
            rfl
          next henc =>
            right; right; right; right
            rw [← h2, ← h3]
            rfl
        · exact absurd heqc (by simp)

theorem annotation_success_eq (env : Env) (fs : FS)
    (v0 : List Char) (rest : List (List Char))
    (hv : get_video_list fs.listing = v0 :: rest)
    (hsucc : ( generate_annotation env fs).res = .ok true) :
    generate_annotation env fs =
      ⟨.ok true, addFile (addFile fs COVER_NAME) (annotationFileName v0),
        [Call.probeVideo v0, Call.probeAudio v0,
         Call.encode (annotationFileName v0)]⟩ := by
  rcases annotation_cases env fs with h | ⟨w0, wrest, hw, hcase⟩
  · rw [h] at hsucc
    exact absurd hsucc (by simp)
  · obtain ⟨rfl, rfl⟩ : w0 = v0 ∧ wrest = rest := by
      rw [hv] at hw
      simpa using hw.symm
    rcases hcase with h | h | h | h | h <;> rw [h] at hsucc ⊢ <;>
      first
        | rfl
        | exact absurd hsucc (by simp)

end Convert

namespace Convert

/-- **C10** (amended): when the Annotation Builder succeeds and the first
eligible video's name contains a dot (so its "extension" is a true
extension), the generated clip `annotation_0.<ext>` is in the directory,
is itself an eligible input (its lowercased name matches no denylisted
extension), has ordering key `0`, is kept by the manifest filter, and in
any sorted manifest it precedes every entry whose key is at least `1`.
(For a dotless first video such as a file literally named `"txt"` the
clip can be denylisted; see the counterexample.) -/
theorem C10_annotation_clip (env : Env) (fs : FS)
    (v0 : List Char) (rest : List (List Char))
    (hv : get_video_list fs.listing = v0 :: rest)
    (hdot : '.' ∈ v0)
    (hsucc : ( generate_annotation env fs).res = .ok true) :
    annotationFileName v0 ∈ ( generate_annotation env fs).fs.listing ∧
    endsWithAny (lowerStr (annotationFileName v0)) IGNORE_EXTENSIONS = false ∧
    video_number (annotationFileName v0) = some 0 ∧
    (∀ videos s, sortVideos videos = some s →
      annotationFileName v0 ∈ videos → annotationFileName v0 ∈ manifestLines s) ∧
    (∀ videos s, sortVideos videos = some s →
      ∀ i j : Fin (manifestLines s).length,
        (manifestLines s).get i = annotationFileName v0 →
        1 ≤ keyD ((manifestLines s).get j) → (i : Nat) < (j : Nat)) := by
  -- eligibility of the first video
  have hv0 : v0 ∈ get_video_list fs.listing := hv ▸ List.mem_cons_self v0 rest
  have hv0e : endsWithAny (lowerStr v0) IGNORE_EXTENSIONS = false := by
    rw [get_video_list, List.mem_filter] at hv0
    simpa using hv0.2
  -- the lowercased extension is free of dots
  have hLdotfree : ∀ c ∈ List.map Char.toLower (afterLastDot v0), c ≠ '.' := by
    intro c hcmem
    rw [List.mem_map] at hcmem
    obtain ⟨c0, hc0, rfl⟩ := hcmem
    exact toLower_ne_dot (mem_afterLastDot_ne_dot hc0)
  -- both the first video and the clip have that same lowercased extension
  have hextv0 : extensionOf (lowerStr v0) = '.' :: lowerStr (afterLastDot v0) := by
    conv_lhs => rw [← beforeLastDot_spec hdot]
    rw [lowerStr, List.map_append, List.map_cons,
      show Char.toLower '.' = '.' from by decide]
    rw [extensionOf, if_pos (by simp),
      afterLastDot_append_dotfree _ _ hLdotfree]
    rfl
  have hann : annotationFileName v0 =
      "annotation_0".toList ++ '.' :: afterLastDot v0 := by
    rw [annotationFileName,
      show "annotation_0.".toList = "annotation_0".toList ++ ['.'] from by decide,
      List.append_assoc, List.singleton_append]
  have hextann : extensionOf (lowerStr (annotationFileName v0)) =
      '.' :: lowerStr (afterLastDot v0) := by
    rw [hann, lowerStr, List.map_append, List.map_cons,
      show Char.toLower '.' = '.' from by decide,
      show List.map Char.toLower "annotation_0".toList =
        "annotation_0".toList from by decide]
    rw [extensionOf, if_pos (by simp),
      afterLastDot_append_dotfree _ _ hLdotfree]
    rfl
  -- (b) the clip is eligible
  have hbe : endsWithAny (lowerStr (annotationFileName v0)) IGNORE_EXTENSIONS
      = false := by
    by_contra hbb
    rw [Bool.not_eq_false] at hbb
    rw [endsWithAny_iff_mem (by decide), hextann, ← hextv0,
      ← endsWithAny_iff_mem (by decide), hv0e] at hbb
    exact absurd hbb (by simp)
  -- (c) the clip's ordering key is 0
  have hc0 : video_number (annotationFileName v0) = some 0 := by
    rw [video_number, annotationFileName,
      unquote_append_nopct _ _ (by decide),
      show "annotation_0.".toList = "annotation_0".toList ++ ['.'] from by decide,
      List.append_assoc, List.singleton_append, beforeFirstDot_append_dot]
    decide
  refine ⟨?_, hbe, hc0, ?_, ?_⟩
  · rw [annotation_success_eq env fs v0 rest hv hsucc]
    exact mem_addFile_self _ _
  · intro videos s hs hmem
    have hperm := (sortVideos_sorted_perm hs).2
    rw [manifestLines, List.mem_filter]
    refine ⟨hperm.mem_iff.mpr hmem, ?_⟩
    rw [Bool.not_eq_eq_eq_not, Bool.not_true]
    by_contra htxt
    rw [Bool.not_eq_false, List.isSuffixOf_iff_suffix] at htxt
    have hlow := htxt.map Char.toLower
    rw [show List.map Char.toLower ".txt".toList = ".txt".toList from by decide]
      at hlow
    have : endsWithAny (lowerStr (annotationFileName v0)) IGNORE_EXTENSIONS
        = true := by
      rw [endsWithAny, IGNORE_EXTENSIONS]
      simp only [List.any_cons, Bool.or_eq_true]
      left
      rw [List.isSuffixOf_iff_suffix]
      exact hlow
    rw [hbe] at this
    exact absurd this (by simp)
  · intro videos s hs i j hi hj
    have hsorted := (sortVideos_sorted_perm hs).1
    have hms : (manifestLines s).Sorted keyLE := by
      rw [manifestLines]
      exact List.Pairwise.filter _ hsorted
    have hkey0 : keyD ((manifestLines s).get i) = 0 := by
      rw [hi, keyD, hc0]
      rfl
    by_contra hij
    push_neg at hij
    rcases Nat.lt_or_ge (j : Nat) (i : Nat) with hlt | hge
    · have hrel := hms.rel_get_of_lt (show j < i from hlt)
      rw [keyLE, hkey0] at hrel
      omega
    · have hji : (j : Nat) = (i : Nat) := Nat.le_antisymm hij hge
      have : keyD ((manifestLines s).get j) = 0 := by
        rw [Fin.ext hji, hkey0]
      omega

/-- Witness for C10 at a single `h264` input `video1.mp4`. -/
theorem C10_annotation_clip_witness :
    annotationFileName "video1.mp4".toList ∈
      ( generate_annotation sampleEnv ⟨["video1.mp4".toList]⟩).fs.listing ∧
    endsWithAny (lowerStr (annotationFileName "video1.mp4".toList))
      IGNORE_EXTENSIONS = false ∧
    video_number (annotationFileName "video1.mp4".toList) = some 0 ∧
    annotationFileName "video1.mp4".toList ∈
      manifestLines ["annotation_0.mp4".toList, "video1.mp4".toList] :=
  ⟨(C10_annotation_clip sampleEnv ⟨["video1.mp4".toList]⟩ "video1.mp4".toList []
      (by decide) (by decide) rfl).1,
   (C10_annotation_clip sampleEnv ⟨["video1.mp4".toList]⟩ "video1.mp4".toList []
      (by decide) (by decide) rfl).2.1,
   (C10_annotation_clip sampleEnv ⟨["video1.mp4".toList]⟩ "video1.mp4".toList []
      (by decide) (by decide) rfl).2.2.1,
   (C10_annotation_clip sampleEnv ⟨["video1.mp4".toList]⟩ "video1.mp4".toList []
      (by decide) (by decide) rfl).2.2.2.1
     ["video1.mp4".toList, "annotation_0.mp4".toList]
     ["annotation_0.mp4".toList, "video1.mp4".toList]
     (by decide) (by decide)⟩

/-- **C10** is false as stated: for a directory whose only input is a
file literally named `"txt"` (which is eligible: `"txt"` does not end in
`".txt"`), the Annotation Builder succeeds and names the clip
`annotation_0.txt`, whose extension *is* denylisted, so the clip is not
an eligible input of the Concatenator. -/
theorem C10_annotation_clip_cex :
    ( generate_annotation sampleEnv ⟨["txt".toList]⟩).res = .ok true ∧
    annotationFileName "txt".toList = "annotation_0.txt".toList ∧
    annotationFileName "txt".toList ∈
      ( generate_annotation sampleEnv ⟨["txt".toList]⟩).fs.listing ∧
    get_video_list ["annotation_0.txt".toList] = [] ∧
    endsWithAny (lowerStr (annotationFileName "txt".toList))
      IGNORE_EXTENSIONS = true :=
  ⟨rfl, by decide, by decide, by decide, by decide⟩

end Convert
